import Mathlib

/-!
Verification development for the flac-generator program (`GeneratorMain.py`).

The program's pure core is embedded shallowly:
  * machine integers become `Int` (Python integers are unbounded);
  * Python float arithmetic (true division, `int(...)` truncation,
    `round(x, 2)`, `math.ceil`) is modelled exactly over `ℚ`;
  * fallible code returns `Except PyError`;
  * the filesystem seen by `get_file_list` is a finite tree of entries,
    and the process-global `files` list is threaded explicitly as the
    `files` argument (each call returns the new value of the global);
  * the ffmpeg conversion subprocess of `generate_flac_file` is modelled
    by the list of pattern matches its output loop observes.
-/

/-- Python exception kinds raised by the embedded code. -/
inductive PyError where
  | typeError
  | valueError
  | zeroDivisionError
  | timeoutError
deriving DecidableEq

/-- Decimal digit characters, used to model Python `str(int)`. -/
def digitChar (d : ℕ) : Char :=
  if d = 0 then '0' else if d = 1 then '1' else if d = 2 then '2'
  else if d = 3 then '3' else if d = 4 then '4' else if d = 5 then '5'
  else if d = 6 then '6' else if d = 7 then '7' else if d = 8 then '8' else '9'

/-- Fuelled decimal-digit expansion of a natural number (most significant first). -/
def toDecAux : ℕ → ℕ → List Char
  | 0, _ => []
  | fuel + 1, n =>
      if n < 10 then [digitChar n]
      else toDecAux fuel (n / 10) ++ [digitChar (n % 10)]

/-- Decimal digits of a natural number; fuel `n + 1` always suffices. -/
def toDecimal (n : ℕ) : List Char := toDecAux (n + 1) n

/-- Model of Python `str` on a natural number. -/
def pyStr (n : ℕ) : String := String.mk (toDecimal n)

/-- Model of Python `str` on an integer. -/
def pyStrInt (i : ℤ) : String :=
  if i < 0 then ("-") ++ pyStr (-i).toNat else pyStr i.toNat

/-- Model of Python string repetition `s * n`. -/
def repeatStr (s : String) : ℕ → String
  | 0 => ("")
  | n + 1 => s ++ repeatStr s n

/-- Model of Python `str.rjust(w)` (pads with spaces on the left). -/
def rjust (w : ℕ) (s : String) : String :=
  if s.length < w then repeatStr (" ") (w - s.length) ++ s else s

/-- Model of Python `str.strip()` on the character list. -/
def pyStripData (l : List Char) : List Char :=
  ((l.dropWhile Char.isWhitespace).reverse.dropWhile Char.isWhitespace).reverse

/-- Model of Python `str.strip()`. -/
def pyStrip (s : String) : String := String.mk (pyStripData s.data)

/-- Model of Python `s.rpartition('.')[-1]`: the part of `s` after the last
dot, or all of `s` when `s` has no dot (this is what the source computes as
the "extension" of a path). -/
def extOf (s : String) : String :=
  String.mk ((s.data.reverse.takeWhile (fun c => c != '.')).reverse)

/-- Model of Python `os.path.join(a, b)` for POSIX paths. -/
def pathJoin (a b : String) : String :=
  if b.data.head? = some '/' then b
  else if a = ("") then b
  else if a.data.getLast? = some '/' then a ++ b
  else a ++ ("/") ++ b

/-- The directory path `a` normalised to end with exactly one separator,
so that `pathJoin a b = dirPre a ++ b` for relative nonempty `b`. -/
def dirPre (a : String) : String :=
  if a.data.getLast? = some '/' then a else a ++ ("/")

/-- Model of Python `int(...)` applied to a real value: truncation toward zero. -/
def pyTrunc (q : ℚ) : ℤ := if 0 ≤ q then ⌊q⌋ else ⌈q⌉

/-- Round-half-to-even on an exact rational, the rounding used by Python `round`. -/
def roundHalfEven (q : ℚ) : ℤ :=
  if q - (⌊q⌋ : ℚ) < 1 / 2 then ⌊q⌋
  else if (1 : ℚ) / 2 < q - (⌊q⌋ : ℚ) then ⌊q⌋ + 1
  else if ⌊q⌋ % 2 = 0 then ⌊q⌋ else ⌊q⌋ + 1

/-- Model of Python `round(q, 2)` over exact rationals. -/
def round2 (q : ℚ) : ℚ := (roundHalfEven (q * 100) : ℚ) / 100

/-- Model of Python `'%04.02f' % q`: two decimal places, zero-padded on the
left to a minimum width of 4 characters. -/
def pctFmt (q : ℚ) : String :=
  let k : ℤ := roundHalfEven (q * 100)
  let s : String := pyStrInt (k / 100) ++ (".") ++
    (if k % 100 < 10 then ("0") ++ pyStrInt (k % 100) else pyStrInt (k % 100))
  if s.length < 4 then repeatStr ("0") (4 - s.length) ++ s else s

/-- `audio_files` from the source: supported audio extensions. -/
def audio_files : List String := [("wav"), ("mp3"), ("m4a")]

/-- `video_files` from the source: supported video extensions. -/
def video_files : List String := [("mp4"), ("mkv")]

/-- `ignore_dir` from the source: name of the directory to be skipped. -/
def ignore_dir : String := (".ignore")

/-- `units` from the source: names of the units of time, largest first. -/
def units : List String := [("weeks"), ("days"), ("hours"), ("minutes"), ("seconds")]

/-- `time_units` from the source: seconds per unit of time, largest first. -/
def time_units : List ℤ := [60 * 60 * 24 * 7, 60 * 60 * 24, 60 * 60, 60, 1]

/-- The configurable globals `symbol` and `progress_bar_count` of the source. -/
structure Config where
  symbol : String
  progress_bar_count : ℤ
deriving DecidableEq

/-- The source's default configuration: empty `symbol`, 20 progress bars. -/
def defaultConfig : Config := { symbol := (""), progress_bar_count := 20 }

/-- A directory entry of the modelled filesystem. -/
inductive Entry where
  | file (name : String)
  | dir (name : String) (children : List Entry)

/-- The name of a directory entry. -/
def entryName : Entry → String
  | Entry.file n => n
  | Entry.dir n _ => n

/-- Names of the entries of a directory listing, in listing order. -/
def namesOf (l : List Entry) : List String := l.map entryName

/-- A filesystem name an actual OS could produce: nonempty and without a
path separator. -/
def goodName (n : String) : Bool := (n != ("")) && !(n.data.contains '/')

/-- Well-formedness of a modelled directory tree: every name is a real
filesystem name, and sibling names are distinct at every level. -/
def wfT : List Entry → Bool
  | [] => true
  | Entry.file n :: rest => goodName n && !((namesOf rest).contains n) && wfT rest
  | Entry.dir n cs :: rest =>
      goodName n && !((namesOf rest).contains n) && wfT cs && wfT rest

/-- The first loop of `get_file_list` (lines 102-107 of the source): for each
item in the listing, append `join(root_dir, item)` to the global `files` list
when the item is a file whose extension is whitelisted. -/
def gflFiles (root_dir : String) (entries : List Entry) (files : List String) : List String :=
  match entries with
  | [] => files
  | Entry.file name :: rest =>
      let item := pathJoin root_dir name
      let ext := extOf item
      gflFiles root_dir rest
        (if ext ∈ audio_files ∨ ext ∈ video_files then files ++ [item] else files)
  | Entry.dir _ _ :: rest => gflFiles root_dir rest files

mutual

/-- `get_file_list` from the source. The global `files` list is threaded as
the last argument and returned, exactly as the Python function appends to the
module-level `files` and returns it. The filesystem tree below `root_dir` is
passed as `entries` (the listing of `root_dir`, with each directory entry
carrying its own listing). -/
def get_file_list (root_dir : String) (entries : List Entry) (mode : String)
    (files : List String) : List String :=
  let files1 := gflFiles root_dir entries files
  if mode = ("recursive") then gflDirs root_dir entries mode files1 else files1

/-- The second loop of `get_file_list` (lines 111-122 of the source): for each
item, skip it when its name equals `ignore_dir`, and recurse into it when it
is a directory. -/
def gflDirs (root_dir : String) (entries : List Entry) (mode : String)
    (files : List String) : List String :=
  match entries with
  | [] => files
  | Entry.file name :: rest =>
      if name = ignore_dir then gflDirs root_dir rest mode files
      else gflDirs root_dir rest mode files
  | Entry.dir name children :: rest =>
      if name = ignore_dir then gflDirs root_dir rest mode files
      else gflDirs root_dir rest mode (get_file_list (pathJoin root_dir name) children mode files)

end

/-- The while loop of `print_time` (lines 200-206 of the source), iterating
over `zip time_units units` with the remaining seconds and the accumulated
output string. `int(seconds / time_units[i])` is float division truncated,
modelled exactly; `seconds %= ...` is Python `%`, i.e. `Int.emod`. -/
def ptLoop : List (ℤ × String) → ℤ → String → String
  | [], _, acc => acc
  | (tu, u) :: rest, s, acc =>
      if s ≥ tu then
        ptLoop rest (s % tu) (acc ++ pyStrInt (pyTrunc ((s : ℚ) / (tu : ℚ))) ++ (" ") ++ u ++ (" "))
      else ptLoop rest s acc

/-- `print_time` from the source: human-readable rendering of a number of
seconds. The `TypeError` branch is unrepresentable here because the input is
typed `ℤ`. -/
def print_time (seconds : ℤ) : Except PyError String :=
  if seconds < 0 then Except.error PyError.valueError
  else if seconds = 0 then Except.ok ("0 seconds")
  else Except.ok (pyStrip (ptLoop (time_units.zip units) seconds ("")))

/-- The `total_frames` argument of `animated_progress`: either a Python
boolean sentinel (frame count unknown) or an integer. -/
inductive TotalFrames where
  | bool (b : Bool)
  | int (n : ℤ)
deriving DecidableEq

/-- Whether the value is a Python boolean (`isinstance(total_frames, bool)`). -/
def TotalFrames.isBool : TotalFrames → Bool
  | TotalFrames.bool _ => true
  | TotalFrames.int _ => false

/-- The numeric value Python uses when a `total_frames` value occurs in
arithmetic or comparisons: `False = 0`, `True = 1`. -/
def TotalFrames.toInt : TotalFrames → ℤ
  | TotalFrames.bool b => if b then 1 else 0
  | TotalFrames.int n => n

/-- Lines 263-270 of the source: the ETA computation of `animated_progress`.
When `time_elapsed > 0` the code computes
`int(total_frames / float(frame_count / time_elapsed)) - time_elapsed`;
a zero rate (i.e. `frame_count = 0`) makes the float division raise
`ZeroDivisionError`. When `time_elapsed ≤ 0` the ETA is `0 - time_elapsed`. -/
def eta_calc (frame_count : ℤ) (total_frames : TotalFrames) (time_elapsed : ℤ) :
    Except PyError ℤ :=
  if time_elapsed > 0 then
    let rate : ℚ := (frame_count : ℚ) / (time_elapsed : ℚ)
    if rate = 0 then Except.error PyError.zeroDivisionError
    else Except.ok (pyTrunc ((total_frames.toInt : ℚ) / rate) - time_elapsed)
  else Except.ok (0 - time_elapsed)

/-- The single line printed by `animated_progress` (line 305-322 of the
source), split into its three printed components. -/
structure Rendered where
  percentText : String
  barText : String
  etaText : String
deriving DecidableEq

/-- `animated_progress` from the source. Returns the rendered line, or the
Python exception the call raises. The `TypeError` branches are
unrepresentable because the arguments are typed. Note that the guard
`frame_count > total_frames` (line 246) compares against `toInt`, because
Python coerces a boolean `total_frames` to `0`/`1` there. -/
def animated_progress (cfg : Config) (frame_count : ℤ) (total_frames : TotalFrames)
    (time_elapsed : ℤ) : Except PyError Rendered :=
  if frame_count < 0 then Except.error PyError.valueError
  else if total_frames.isBool = false ∧ total_frames.toInt ≤ 0 then
    Except.error PyError.valueError
  else if frame_count > total_frames.toInt then Except.error PyError.valueError
  else if time_elapsed < 0 then Except.error PyError.valueError
  else
    let percentage : ℚ :=
      if total_frames.isBool = false then
        round2 (((frame_count : ℚ) / (total_frames.toInt : ℚ)) * 100)
      else 0
    match eta_calc frame_count total_frames time_elapsed with
    | Except.error e => Except.error e
    | Except.ok eta =>
      if cfg.progress_bar_count = 0 then Except.error PyError.zeroDivisionError
      else
        let bar_size : ℚ := 100 / (cfg.progress_bar_count : ℚ)
        let progress : String :=
          if total_frames.isBool = false then
            if cfg.symbol.length ≠ 0 then
              let hashes : ℤ := pyTrunc (percentage / bar_size)
              repeatStr cfg.symbol hashes.toNat ++
                repeatStr (" ") (cfg.progress_bar_count - hashes).toNat
            else
              let completed : ℤ := ⌈percentage / bar_size⌉
              repeatStr ("█") completed.toNat ++
                repeatStr (" ") (cfg.progress_bar_count - completed).toNat
          else ("")
        let percentText : String :=
          if total_frames.isBool = false then rjust 7 (pctFmt percentage ++ ("%"))
          else ("Frames: ") ++ pyStrInt frame_count
        match (if total_frames.isBool = false then print_time eta
               else Except.ok ("¯\\_(ツ)_/¯")) with
        | Except.error e => Except.error e
        | Except.ok t =>
            Except.ok { percentText := percentText, barText := progress,
                        etaText := ("Remaining: ") ++ t }

/-- One observation of the output-matching loop of `generate_flac_file`
(lines 412-422 of the source): pattern 0 is `pexpect.EOF`, pattern 1 is a
`frame= <digits>` progress marker (carrying the digits and the elapsed
seconds `int(time()) - start_time` at that tick), and pattern 2 is the
catch-all `(.+)`. -/
inductive EngineEvent where
  | eof
  | frame (count : ℕ) (elapsed : ℤ)
  | other

/-- The `while True` read loop of `generate_flac_file` (lines 412-424 of the
source), driven by the list of pattern matches observed on the subprocess
output. On EOF the loop breaks and the function returns
`(True, flac_file)`. The `exit_status` of the subprocess is passed in but —
exactly as in the source — never consulted. An exhausted stream with no EOF
match models a `pexpect.TIMEOUT` with silent output. -/
def convert_read_loop (cfg : Config) (frame_count : TotalFrames) (flac_file : String)
    (events : List EngineEvent) (exit_status : ℤ) : Except PyError (Bool × String) :=
  match events with
  | [] => Except.error PyError.timeoutError
  | EngineEvent.eof :: _ => Except.ok (true, flac_file)
  | EngineEvent.frame c e :: rest =>
      match animated_progress cfg (c : ℤ) frame_count e with
      | Except.error err => Except.error err
      | Except.ok _ => convert_read_loop cfg frame_count flac_file rest exit_status
  | EngineEvent.other :: rest => convert_read_loop cfg frame_count flac_file rest exit_status

/-- Modelled from the spec (section 4.2): the greedy decomposition segments,
`"<count> <unitName>"` for each unit, largest to smallest, skipping units
with zero count and reducing the remainder by `count × unit seconds`. -/
def specSegments : List (ℤ × String) → ℤ → List String
  | [], _ => []
  | (size, name) :: rest, remaining =>
      if remaining ≥ size then
        (pyStrInt (remaining / size) ++ (" ") ++ name) ::
          specSegments rest (remaining - remaining / size * size)
      else specSegments rest remaining

/-- Modelled from the spec (section 4.2): "Join kept segments with single
spaces, trimmed of trailing whitespace." -/
def joinSp : List String → String
  | [] => ("")
  | [x] => x
  | x :: y :: r => x ++ (" ") ++ joinSp (y :: r)

/-- Modelled from the spec (section 4.2): the full formatted duration for a
positive number of seconds. -/
def spec_format (s : ℤ) : String := joinSp (specSegments (time_units.zip units) s)

/-- Concatenation of segments, each followed by one space: the shape of the
string built by the `print_time` loop before stripping. -/
def ctD : List (List Char) → List Char
  | [] => []
  | x :: xs => x ++ ' ' :: ctD xs

/-- Segments interleaved with single spaces: the shape of the spec's joined
string, at the character level. -/
def jD : List (List Char) → List Char
  | [] => []
  | [x] => x
  | x :: y :: r => x ++ ' ' :: jD (y :: r)

/-- The first character exists and is not whitespace. -/
def headOkB (l : List Char) : Bool :=
  match l.head? with
  | some c => !c.isWhitespace
  | none => false

/-- The last character exists and is not whitespace. -/
def lastOkB (l : List Char) : Bool :=
  match l.getLast? with
  | some c => !c.isWhitespace
  | none => false

theorem str_ext (a b : String) (h : a.data = b.data) : a = b := by
  cases a
  cases b
  exact congrArg String.mk h

theorem data_append (a b : String) : (a ++ b).data = a.data ++ b.data :=
  String.data_append a b

theorem qdiv_floor (a b : ℤ) (hb : 0 < b) : ⌊(a : ℚ) / (b : ℚ)⌋ = a / b := by
  have hb' : ((b.toNat : ℕ) : ℤ) = b := Int.toNat_of_nonneg hb.le
  have hbq : ((b.toNat : ℕ) : ℚ) = (b : ℚ) := by exact_mod_cast congrArg (fun z : ℤ => (z : ℚ)) hb'
  calc ⌊(a : ℚ) / (b : ℚ)⌋ = ⌊(a : ℚ) / ((b.toNat : ℕ) : ℚ)⌋ := by rw [hbq]
    _ = a / ((b.toNat : ℕ) : ℤ) := Rat.floor_intCast_div_natCast a b.toNat
    _ = a / b := by rw [hb']

theorem pyTrunc_eq_floor (q : ℚ) (h : 0 ≤ q) : pyTrunc q = ⌊q⌋ := if_pos h

theorem pyTrunc_intdiv (a b : ℤ) (ha : 0 ≤ a) (hb : 0 < b) :
    pyTrunc ((a : ℚ) / (b : ℚ)) = a / b := by
  rw [pyTrunc_eq_floor _ (div_nonneg (by exact_mod_cast ha) (by positivity))]
  exact qdiv_floor a b hb

theorem dropWhile_append_left (p : Char → Bool) (A B : List Char) (h : A.dropWhile p ≠ []) :
    (A ++ B).dropWhile p = A.dropWhile p ++ B := by
  induction A with
  | nil => simp at h
  | cons a t ih =>
    by_cases hp : p a
    · simp only [List.cons_append, List.dropWhile_cons, hp, if_true] at *
      exact ih h
    · simp [List.dropWhile_cons, hp]

theorem digitChar_not_ws (d : ℕ) : (digitChar d).isWhitespace = false := by
  unfold digitChar
  repeat' split
  all_goals decide

theorem toDecAux_not_ws (fuel : ℕ) : ∀ n c, c ∈ toDecAux fuel n → c.isWhitespace = false := by
  induction fuel with
  | zero => intro n c h; simp [toDecAux] at h
  | succ fuel ih =>
    intro n c h
    rw [toDecAux] at h
    by_cases h10 : n < 10
    · rw [if_pos h10] at h
      simp at h
      rw [h]
      exact digitChar_not_ws n
    · rw [if_neg h10] at h
      rcases List.mem_append.mp h with h1 | h1
      · exact ih _ c h1
      · simp at h1
        rw [h1]
        exact digitChar_not_ws _

theorem toDecAux_ne_nil (fuel n : ℕ) : toDecAux (fuel + 1) n ≠ [] := by
  rw [toDecAux]
  split
  · simp
  · simp

theorem toDecimal_ne_nil (n : ℕ) : toDecimal n ≠ [] := toDecAux_ne_nil n n

theorem toDecimal_not_ws (n : ℕ) : ∀ c ∈ toDecimal n, c.isWhitespace = false := by
  intro c h
  exact toDecAux_not_ws (n + 1) n c h

theorem pyStr_headOk (n : ℕ) : headOkB (pyStr n).data = true := by
  have h1 := toDecimal_ne_nil n
  have h2 := toDecimal_not_ws n
  show headOkB (toDecimal n) = true
  cases hd : toDecimal n with
  | nil => exact absurd hd h1
  | cons c t =>
    have : c.isWhitespace = false := h2 c (by rw [hd]; exact List.mem_cons_self c t)
    simp [headOkB, this]

theorem headOkB_cons (c : Char) (t : List Char) (h : c.isWhitespace = false) :
    headOkB (c :: t) = true := by simp [headOkB, h]

theorem headOkB_elim (l : List Char) (h : headOkB l = true) :
    ∃ c t, l = c :: t ∧ c.isWhitespace = false := by
  cases l with
  | nil => simp [headOkB] at h
  | cons c t =>
    refine ⟨c, t, rfl, ?_⟩
    simp [headOkB] at h
    exact h

theorem lastOkB_elim (l : List Char) (h : lastOkB l = true) :
    l ≠ [] ∧ ∀ c, l.getLast? = some c → c.isWhitespace = false := by
  cases hg : l.getLast? with
  | none =>
    unfold lastOkB at h
    rw [hg] at h
    simp at h
  | some c =>
    constructor
    · intro hnil
      rw [hnil] at hg
      simp at hg
    · intro c' hc'
      obtain rfl : c = c' := Option.some.inj hc'
      unfold lastOkB at h
      rw [hg] at h
      simpa using h

theorem headOkB_append (A B : List Char) (h : headOkB A = true) :
    headOkB (A ++ B) = true := by
  obtain ⟨c, t, rfl, hc⟩ := headOkB_elim A h
  exact headOkB_cons c (t ++ B) hc

theorem lastOkB_append (A B : List Char) (h : lastOkB B = true) :
    lastOkB (A ++ B) = true := by
  obtain ⟨hne, _⟩ := lastOkB_elim B h
  unfold lastOkB
  rw [List.getLast?_append_of_ne_nil A hne]
  exact h

theorem dropWhile_of_headOk (l : List Char) (h : headOkB l = true) :
    l.dropWhile Char.isWhitespace = l := by
  obtain ⟨c, t, rfl, hc⟩ := headOkB_elim l h
  simp [List.dropWhile_cons, hc]

theorem jD_ne_nil (x : List Char) (xs : List (List Char)) (hx : x ≠ []) :
    jD (x :: xs) ≠ [] := by
  cases xs with
  | nil => simpa [jD] using hx
  | cons y r =>
    show x ++ ' ' :: jD (y :: r) ≠ []
    simp

theorem reverse_head_of_lastOk (l : List Char) (h : lastOkB l = true) :
    headOkB l.reverse = true := by
  obtain ⟨hne, hlast⟩ := lastOkB_elim l h
  cases hr : l.reverse with
  | nil =>
    have : l = [] := by simpa using congrArg List.reverse hr
    exact absurd this hne
  | cons c t =>
    have : l.getLast? = some c := by
      rw [List.getLast?_eq_head?_reverse, hr]
      rfl
    exact headOkB_cons c t (hlast c this)

theorem ctD_rev_drop (L : List (List Char))
    (h : ∀ x ∈ L, headOkB x = true ∧ lastOkB x = true) :
    (ctD L).reverse.dropWhile Char.isWhitespace = (jD L).reverse := by
  induction L with
  | nil => simp [ctD, jD]
  | cons x xs ih =>
    obtain ⟨hxh, hxl⟩ := h x (List.mem_cons_self x xs)
    obtain ⟨hxne, _⟩ := lastOkB_elim x hxl
    cases xs with
    | nil =>
      show (x ++ [' ']).reverse.dropWhile Char.isWhitespace = (jD [x]).reverse
      rw [List.reverse_append]
      show (' ' :: x.reverse).dropWhile Char.isWhitespace = (jD [x]).reverse
      rw [List.dropWhile_cons]
      rw [if_pos (by decide)]
      rw [dropWhile_of_headOk x.reverse (reverse_head_of_lastOk x hxl)]
      rfl
    | cons y r =>
      have hy := h y (by simp)
      obtain ⟨hyne, _⟩ := lastOkB_elim y hy.2
      have hjne : jD (y :: r) ≠ [] := jD_ne_nil y r hyne
      have ihr := ih (fun z hz => h z (List.mem_cons_of_mem x hz))
      show (x ++ ' ' :: ctD (y :: r)).reverse.dropWhile Char.isWhitespace = (jD (x :: y :: r)).reverse
      have hrw : (x ++ ' ' :: ctD (y :: r)).reverse
          = (ctD (y :: r)).reverse ++ ' ' :: x.reverse := by
        rw [List.reverse_append, List.reverse_cons, List.append_assoc]
        simp
      rw [hrw]
      have hne2 : (ctD (y :: r)).reverse.dropWhile Char.isWhitespace ≠ [] := by
        rw [ihr]
        simpa using hjne
      rw [dropWhile_append_left _ _ _ hne2, ihr]
      show (jD (y :: r)).reverse ++ ' ' :: x.reverse = (jD (x :: y :: r)).reverse
      show (jD (y :: r)).reverse ++ ' ' :: x.reverse = (x ++ ' ' :: jD (y :: r)).reverse
      rw [List.reverse_append, List.reverse_cons, List.append_assoc]
      simp

theorem pyStripData_ctD (L : List (List Char))
    (h : ∀ x ∈ L, headOkB x = true ∧ lastOkB x = true) :
    pyStripData (ctD L) = jD L := by
  cases L with
  | nil => rfl
  | cons x xs =>
    obtain ⟨hxh, hxl⟩ := h x (List.mem_cons_self x xs)
    unfold pyStripData
    have h1 : (ctD (x :: xs)).dropWhile Char.isWhitespace = ctD (x :: xs) := by
      show ((x ++ ' ' :: ctD xs).dropWhile Char.isWhitespace) = x ++ ' ' :: ctD xs
      exact dropWhile_of_headOk _ (headOkB_append x (' ' :: ctD xs) hxh)
    rw [h1, ctD_rev_drop (x :: xs) h]
    simp

theorem joinSp_data (l : List String) : (joinSp l).data = jD (l.map String.data) := by
  induction l with
  | nil => rfl
  | cons x xs ih =>
    cases xs with
    | nil => rfl
    | cons y r =>
      show (x ++ (" ") ++ joinSp (y :: r)).data = jD (x.data :: (y :: r).map String.data)
      rw [data_append, data_append, ih]
      show x.data ++ [' '] ++ jD ((y :: r).map String.data)
        = x.data ++ ' ' :: jD ((y :: r).map String.data)
      rw [List.append_assoc]
      rfl

theorem ptLoop_eq_specSegments (zl : List (ℤ × String)) :
    ∀ s acc, 0 ≤ s → (∀ p ∈ zl, 0 < p.1) →
    (ptLoop zl s acc).data = acc.data ++ ctD ((specSegments zl s).map String.data) := by
  induction zl with
  | nil => intro s acc _ _; simp [ptLoop, specSegments, ctD]
  | cons p rest ih =>
    intro s acc hs hpos
    obtain ⟨tu, u⟩ := p
    have htu : 0 < tu := hpos (tu, u) (List.mem_cons_self _ _)
    by_cases hge : s ≥ tu
    · rw [ptLoop, if_pos hge, specSegments, if_pos hge]
      have hmod : s - s / tu * tu = s % tu := by
        rw [Int.emod_def]
        ring
      rw [hmod]
      have hrec := ih (s % tu) (acc ++ pyStrInt (pyTrunc ((s : ℚ) / (tu : ℚ))) ++ (" ") ++ u ++ (" "))
        (Int.emod_nonneg s (ne_of_gt htu)) (fun q hq => hpos q (List.mem_cons_of_mem _ hq))
      rw [hrec]
      rw [pyTrunc_intdiv s tu hs htu]
      show (acc ++ pyStrInt (s / tu) ++ (" ") ++ u ++ (" ")).data
          ++ ctD ((specSegments rest (s % tu)).map String.data)
        = acc.data ++ ctD ((pyStrInt (s / tu) ++ (" ") ++ u).data
            :: (specSegments rest (s % tu)).map String.data)
      rw [data_append, data_append, data_append, data_append, data_append]
      show acc.data ++ (pyStrInt (s / tu)).data ++ [' '] ++ u.data ++ [' ']
          ++ ctD ((specSegments rest (s % tu)).map String.data)
        = acc.data ++ (((pyStrInt (s / tu)).data ++ [' '] ++ u.data)
            ++ ' ' :: ctD ((specSegments rest (s % tu)).map String.data))
      simp [List.append_assoc]
    · rw [ptLoop, if_neg hge, specSegments, if_neg hge]
      exact ih s acc hs (fun q hq => hpos q (List.mem_cons_of_mem _ hq))

theorem pyStrInt_pos_headOk (i : ℤ) (h : 0 ≤ i) : headOkB (pyStrInt i).data = true := by
  unfold pyStrInt
  rw [if_neg (by omega)]
  exact pyStr_headOk i.toNat

theorem specSegments_conds (zl : List (ℤ × String)) :
    ∀ s, (∀ p ∈ zl, 0 < p.1 ∧ lastOkB p.2.data = true) →
    ∀ seg ∈ specSegments zl s, headOkB seg.data = true ∧ lastOkB seg.data = true := by
  induction zl with
  | nil => intro s _ seg hseg; simp [specSegments] at hseg
  | cons p rest ih =>
    intro s hzl seg hseg
    obtain ⟨tu, u⟩ := p
    obtain ⟨htu, hu⟩ := hzl (tu, u) (List.mem_cons_self _ _)
    rw [specSegments] at hseg
    by_cases hge : s ≥ tu
    · rw [if_pos hge] at hseg
      rcases List.mem_cons.mp hseg with h1 | h1
      · subst h1
        constructor
        · rw [data_append]
          apply headOkB_append
          rw [data_append]
          apply headOkB_append
          exact pyStrInt_pos_headOk (s / tu) (Int.ediv_nonneg (le_trans htu.le hge) htu.le)
        · rw [data_append]
          exact lastOkB_append _ _ hu
      · exact ih _ (fun q hq => hzl q (List.mem_cons_of_mem _ hq)) seg h1
    · rw [if_neg hge] at hseg
      exact ih _ (fun q hq => hzl q (List.mem_cons_of_mem _ hq)) seg hseg

theorem print_time_spec (s : ℤ) (hs : 0 < s) : print_time s = Except.ok (spec_format s) := by
  unfold print_time
  rw [if_neg (by omega), if_neg (by omega)]
  congr 1
  apply str_ext
  show pyStripData (ptLoop (time_units.zip units) s ("")).data = (spec_format s).data
  rw [ptLoop_eq_specSegments (time_units.zip units) s ("") hs.le (by decide)]
  show pyStripData (ctD ((specSegments (time_units.zip units) s).map String.data))
    = (spec_format s).data
  rw [pyStripData_ctD]
  · unfold spec_format
    rw [joinSp_data]
  · intro x hx
    obtain ⟨seg, hseg, rfl⟩ := List.mem_map.mp hx
    exact specSegments_conds (time_units.zip units) s (by decide) seg hseg

theorem head?_mem (l : List Char) (c : Char) (h : l.head? = some c) : c ∈ l := by
  cases l with
  | nil => simp at h
  | cons a t =>
    rw [List.head?_cons] at h
    obtain rfl := Option.some.inj h
    exact List.mem_cons_self _ _

theorem contains_false (l : List Char) (c : Char) (h : l.contains c = false) : c ∉ l := by
  simp at h
  exact h

theorem append_cancel_str (a b c : String) (h : a ++ b = a ++ c) : b = c := by
  apply str_ext
  have hd := congrArg String.data h
  rw [data_append, data_append] at hd
  exact List.append_cancel_left hd

theorem str_ne_empty_data (a : String) (h : a ≠ ("")) : a.data ≠ [] := by
  intro hd
  exact h (str_ext a ("") hd)

theorem goodName_elim (n : String) (h : goodName n = true) :
    n.data ≠ [] ∧ ('/') ∉ n.data := by
  unfold goodName at h
  rw [Bool.and_eq_true] at h
  obtain ⟨h1, h2⟩ := h
  constructor
  · apply str_ne_empty_data
    simpa using h1
  · apply contains_false
    simpa using h2

theorem slash_split : ∀ (a b x y : List Char), ('/') ∉ a → ('/') ∉ b →
    a ++ '/' :: x = b ++ '/' :: y → a = b ∧ x = y := by
  intro a
  induction a with
  | nil =>
    intro b x y _ hb h
    cases b with
    | nil => simpa using h
    | cons c t =>
      simp only [List.nil_append, List.cons_append, List.cons_eq_cons] at h
      exfalso
      apply hb
      rw [← h.1]
      exact List.mem_cons_self _ _
  | cons c t ih =>
    intro b x y ha hb h
    cases b with
    | nil =>
      simp only [List.nil_append, List.cons_append, List.cons_eq_cons] at h
      exfalso
      apply ha
      rw [h.1]
      exact List.mem_cons_self _ _
    | cons d u =>
      simp only [List.cons_append, List.cons_eq_cons] at h
      obtain ⟨rfl, h2⟩ := h
      have ha' : ('/') ∉ t := fun hm => ha (List.mem_cons_of_mem _ hm)
      have hb' : ('/') ∉ u := fun hm => hb (List.mem_cons_of_mem _ hm)
      obtain ⟨rfl, rfl⟩ := ih u x y ha' hb' h2
      exact ⟨rfl, rfl⟩

theorem dirPre_data_last (a : String) : (dirPre a).data.getLast? = some '/' := by
  unfold dirPre
  split
  · assumption
  · rw [data_append]
    rw [List.getLast?_append_of_ne_nil _ (by simp : (("/") : String).data ≠ [])]
    rfl

theorem head?_ne_slash (l : List Char) (h : ('/') ∉ l) : l.head? ≠ some '/' := by
  intro hc
  exact h (head?_mem l '/' hc)

theorem pathJoin_eq_dirPre (root name : String) (hr : root ≠ (""))
    (hn : name.data.head? ≠ some '/') : pathJoin root name = dirPre root ++ name := by
  unfold pathJoin dirPre
  rw [if_neg hn, if_neg hr]
  split
  · rfl
  · rfl

theorem getLast?_mem_char (l : List Char) (c : Char) (h : l.getLast? = some c) : c ∈ l := by
  obtain ⟨hne, rfl⟩ := List.mem_getLast?_eq_getLast (show c ∈ l.getLast? from h)
  exact List.getLast_mem hne

theorem dirPre_of_last_ne (a : String) (h : a.data.getLast? ≠ some '/') :
    dirPre a = a ++ ("/") := if_neg h

theorem dirPre_pathJoin (root d : String) (hr : root ≠ ("")) (hne : d.data ≠ [])
    (hslash : ('/') ∉ d.data) :
    (dirPre (pathJoin root d)).data = (dirPre root).data ++ d.data ++ ['/'] := by
  rw [pathJoin_eq_dirPre root d hr (head?_ne_slash _ hslash)]
  have hlast : (dirPre root ++ d).data.getLast? = d.data.getLast? := by
    rw [data_append]
    exact List.getLast?_append_of_ne_nil _ hne
  have hdlast : d.data.getLast? ≠ some '/' := by
    intro hc
    exact hslash (getLast?_mem_char _ _ hc)
  rw [dirPre_of_last_ne _ (by rw [hlast]; exact hdlast)]
  rw [data_append, data_append]

theorem pathJoin_data (root name : String) (hr : root ≠ (""))
    (hn : name.data.head? ≠ some '/') :
    (pathJoin root name).data = (dirPre root).data ++ name.data := by
  rw [pathJoin_eq_dirPre root name hr hn]
  exact data_append _ _

theorem wfT_cons_file (n : String) (rest : List Entry)
    (h : wfT (Entry.file n :: rest) = true) :
    goodName n = true ∧ (namesOf rest).contains n = false ∧ wfT rest = true := by
  unfold wfT at h
  rw [Bool.and_eq_true, Bool.and_eq_true] at h
  refine ⟨h.1.1, ?_, h.2⟩
  simpa using h.1.2

theorem wfT_cons_dir (n : String) (cs rest : List Entry)
    (h : wfT (Entry.dir n cs :: rest) = true) :
    goodName n = true ∧ (namesOf rest).contains n = false ∧ wfT cs = true ∧ wfT rest = true := by
  unfold wfT at h
  rw [Bool.and_eq_true, Bool.and_eq_true, Bool.and_eq_true] at h
  refine ⟨h.1.1.1, ?_, h.1.2, h.2⟩
  simpa using h.1.1.2

theorem wfT_mem_good (l : List Entry) (h : wfT l = true) :
    ∀ e ∈ l, goodName (entryName e) = true := by
  induction l with
  | nil => intro e he; simp at he
  | cons x rest ih =>
    intro e he
    rcases List.mem_cons.mp he with rfl | he'
    · cases e with
      | file n => exact (wfT_cons_file n rest h).1
      | dir n cs => exact (wfT_cons_dir n cs rest h).1
    · cases x with
      | file n => exact ih (wfT_cons_file n rest h).2.2 e he'
      | dir n cs => exact ih (wfT_cons_dir n cs rest h).2.2.2 e he'

theorem name_notin_namesOf (n : String) (rest : List Entry)
    (h : (namesOf rest).contains n = false) :
    ∀ e ∈ rest, entryName e ≠ n := by
  intro e he hc
  have : n ∈ namesOf rest := by
    rw [← hc]
    exact List.mem_map_of_mem entryName he
  simp at h
  exact h this

theorem gflFiles_state (root : String) (entries : List Entry) :
    ∀ files, gflFiles root entries files = files ++ gflFiles root entries [] := by
  induction entries with
  | nil => intro files; simp [gflFiles]
  | cons e rest ih =>
    intro files
    cases e with
    | file name =>
      simp only [gflFiles, List.nil_append]
      by_cases hc : extOf (pathJoin root name) ∈ audio_files ∨
          extOf (pathJoin root name) ∈ video_files
      · rw [if_pos hc, if_pos hc]
        rw [ih (files ++ [pathJoin root name]), ih ([pathJoin root name])]
        simp
      · rw [if_neg hc, if_neg hc]
        exact ih files
    | dir name cs =>
      simp only [gflFiles]
      exact ih files

theorem gflDirs_file_skip (root : String) (n : String) (rest : List Entry) (mode : String)
    (files : List String) :
    gflDirs root (Entry.file n :: rest) mode files = gflDirs root rest mode files := by
  conv_lhs => unfold gflDirs
  split
  · rfl
  · rfl

theorem gfl_state_aux : ∀ N : ℕ, ∀ entries : List Entry, sizeOf entries ≤ N →
    ∀ root mode files,
      (get_file_list root entries mode files = files ++ get_file_list root entries mode []) ∧
      (gflDirs root entries mode files = files ++ gflDirs root entries mode []) := by
  intro N
  induction N with
  | zero =>
    intro entries h
    exfalso
    cases entries with
    | nil => simp at h
    | cons e rest => simp at h
  | succ N ihN =>
    intro entries hsize root mode files
    have hdirs : ∀ files' : List String,
        gflDirs root entries mode files' = files' ++ gflDirs root entries mode [] := by
      intro files'
      cases entries with
      | nil => unfold gflDirs; simp
      | cons e rest =>
        have hrest : sizeOf rest ≤ N := by
          simp at hsize
          omega
        cases e with
        | file n =>
          rw [gflDirs_file_skip, gflDirs_file_skip]
          exact (ihN rest hrest root mode files').2
        | dir n cs =>
          have hcs : sizeOf cs ≤ N := by
            simp at hsize
            omega
          by_cases hig : n = ignore_dir
          · show gflDirs root (Entry.dir n cs :: rest) mode files'
              = files' ++ gflDirs root (Entry.dir n cs :: rest) mode []
            unfold gflDirs
            rw [if_pos hig, if_pos hig]
            exact (ihN rest hrest root mode files').2
          · show gflDirs root (Entry.dir n cs :: rest) mode files'
              = files' ++ gflDirs root (Entry.dir n cs :: rest) mode []
            unfold gflDirs
            rw [if_neg hig, if_neg hig]
            rw [(ihN cs hcs (pathJoin root n) mode files').1]
            rw [(ihN rest hrest root mode
              (files' ++ get_file_list (pathJoin root n) cs mode [])).2]
            rw [(ihN rest hrest root mode
              (get_file_list (pathJoin root n) cs mode [])).2]
            simp
    constructor
    · show get_file_list root entries mode files = files ++ get_file_list root entries mode []
      simp only [get_file_list]
      by_cases hm : mode = ("recursive")
      · rw [if_pos hm, if_pos hm]
        rw [gflFiles_state root entries files]
        rw [hdirs (files ++ gflFiles root entries [])]
        rw [hdirs (gflFiles root entries [])]
        simp
      · rw [if_neg hm, if_neg hm]
        exact gflFiles_state root entries files
    · exact hdirs files

theorem get_file_list_state (root : String) (entries : List Entry) (mode : String)
    (files : List String) :
    get_file_list root entries mode files = files ++ get_file_list root entries mode [] :=
  (gfl_state_aux (sizeOf entries) entries le_rfl root mode files).1

theorem gflDirs_state (root : String) (entries : List Entry) (mode : String)
    (files : List String) :
    gflDirs root entries mode files = files ++ gflDirs root entries mode [] :=
  (gfl_state_aux (sizeOf entries) entries le_rfl root mode files).2

theorem dirPre_data_ne_nil (root : String) : (dirPre root).data ≠ [] := by
  intro h
  have := dirPre_data_last root
  rw [h] at this
  cases this

theorem pathJoin_ne_empty (root n : String) (hr : root ≠ (""))
    (hn : n.data.head? ≠ some '/') : pathJoin root n ≠ ("") := by
  rw [pathJoin_eq_dirPre root n hr hn]
  intro h
  have hd := congrArg String.data h
  rw [data_append] at hd
  rw [List.append_eq_nil] at hd
  exact dirPre_data_ne_nil root hd.1

theorem gflFiles_spec (root : String) (hr : root ≠ ("")) :
    ∀ entries : List Entry, wfT entries = true →
    (gflFiles root entries []).Nodup ∧
    ∀ p ∈ gflFiles root entries [], ∃ name,
      Entry.file name ∈ entries ∧ p = pathJoin root name := by
  intro entries
  induction entries with
  | nil =>
    intro _
    constructor
    · simp [gflFiles]
    · intro p hp
      simp [gflFiles] at hp
  | cons e rest ih =>
    intro hwf
    cases e with
    | dir n cs =>
      have hwfr := (wfT_cons_dir n cs rest hwf).2.2.2
      obtain ⟨hnd, hmem⟩ := ih hwfr
      have heq : gflFiles root (Entry.dir n cs :: rest) [] = gflFiles root rest [] := by
        simp only [gflFiles]
      rw [heq]
      refine ⟨hnd, ?_⟩
      intro p hp
      obtain ⟨name, h1, h2⟩ := hmem p hp
      exact ⟨name, List.mem_cons_of_mem _ h1, h2⟩
    | file n =>
      obtain ⟨hgood, hnotin, hwfr⟩ := wfT_cons_file n rest hwf
      obtain ⟨hnd, hmem⟩ := ih hwfr
      obtain ⟨hnne, hnslash⟩ := goodName_elim n hgood
      have heq : gflFiles root (Entry.file n :: rest) [] =
          (if extOf (pathJoin root n) ∈ audio_files ∨ extOf (pathJoin root n) ∈ video_files
           then [pathJoin root n] else []) ++ gflFiles root rest [] := by
        simp only [gflFiles, List.nil_append]
        by_cases hc : extOf (pathJoin root n) ∈ audio_files ∨
            extOf (pathJoin root n) ∈ video_files
        · rw [if_pos hc]
          exact gflFiles_state root rest [pathJoin root n]
        · rw [if_neg hc]
          simp
      rw [heq]
      by_cases hc : extOf (pathJoin root n) ∈ audio_files ∨
          extOf (pathJoin root n) ∈ video_files
      · rw [if_pos hc]
        constructor
        · rw [List.singleton_append, List.nodup_cons]
          refine ⟨?_, hnd⟩
          intro hin
          obtain ⟨name, hname, hpeq⟩ := hmem (pathJoin root n) hin
          have hgood' := wfT_mem_good rest hwfr (Entry.file name) hname
          have hslash' : name.data.head? ≠ some '/' :=
            head?_ne_slash _ (goodName_elim name hgood').2
          rw [pathJoin_eq_dirPre root n hr (head?_ne_slash _ hnslash),
              pathJoin_eq_dirPre root name hr hslash'] at hpeq
          have : n = name := append_cancel_str (dirPre root) n name hpeq
          exact name_notin_namesOf n rest hnotin (Entry.file name) hname this.symm
        · intro p hp
          rw [List.singleton_append, List.mem_cons] at hp
          rcases hp with rfl | hp
          · exact ⟨n, List.mem_cons_self _ _, rfl⟩
          · obtain ⟨name, h1, h2⟩ := hmem p hp
            exact ⟨name, List.mem_cons_of_mem _ h1, h2⟩
      · rw [if_neg hc, List.nil_append]
        refine ⟨hnd, ?_⟩
        intro p hp
        obtain ⟨name, h1, h2⟩ := hmem p hp
        exact ⟨name, List.mem_cons_of_mem _ h1, h2⟩

theorem gfl_big_aux : ∀ N : ℕ, ∀ entries : List Entry, sizeOf entries ≤ N →
    ∀ root mode, root ≠ ("") → wfT entries = true →
    ((get_file_list root entries mode []).Nodup ∧
      ∀ p ∈ get_file_list root entries mode [], ∃ s : List Char,
        p.data = (dirPre root).data ++ s ∧ s ≠ [] ∧ s.head? ≠ some '/') ∧
    ((gflDirs root entries mode []).Nodup ∧
      ∀ p ∈ gflDirs root entries mode [], ∃ d cs t, Entry.dir d cs ∈ entries ∧
        p.data = (dirPre root).data ++ d.data ++ '/' :: t) := by
  intro N
  induction N with
  | zero =>
    intro entries h
    exfalso
    cases entries with
    | nil => simp at h
    | cons e rest => simp at h
  | succ N ihN =>
    intro entries hsize root mode hr hwf
    have hDirs : (gflDirs root entries mode []).Nodup ∧
        ∀ p ∈ gflDirs root entries mode [], ∃ d cs t, Entry.dir d cs ∈ entries ∧
          p.data = (dirPre root).data ++ d.data ++ '/' :: t := by
      cases entries with
      | nil =>
        constructor
        · show (gflDirs root [] mode []).Nodup
          unfold gflDirs
          simp
        · intro p hp
          unfold gflDirs at hp
          simp at hp
      | cons e rest =>
        have hrest : sizeOf rest ≤ N := by
          simp at hsize
          omega
        cases e with
        | file n =>
          rw [gflDirs_file_skip]
          have hwfr : wfT rest = true := (wfT_cons_file n rest hwf).2.2
          obtain ⟨hnd, hmem⟩ := (ihN rest hrest root mode hr hwfr).2
          refine ⟨hnd, ?_⟩
          intro p hp
          obtain ⟨d, cs, t, h1, h2⟩ := hmem p hp
          exact ⟨d, cs, t, List.mem_cons_of_mem _ h1, h2⟩
        | dir n cs =>
          obtain ⟨hgood, hnotin, hwfc, hwfr⟩ := wfT_cons_dir n cs rest hwf
          have hcs : sizeOf cs ≤ N := by
            simp at hsize
            omega
          by_cases hig : n = ignore_dir
          · have heq : gflDirs root (Entry.dir n cs :: rest) mode []
                = gflDirs root rest mode [] := by
              conv_lhs => unfold gflDirs
              rw [if_pos hig]
            rw [heq]
            obtain ⟨hnd, hmem⟩ := (ihN rest hrest root mode hr hwfr).2
            refine ⟨hnd, ?_⟩
            intro p hp
            obtain ⟨d, cs', t, h1, h2⟩ := hmem p hp
            exact ⟨d, cs', t, List.mem_cons_of_mem _ h1, h2⟩
          · have heq : gflDirs root (Entry.dir n cs :: rest) mode []
                = get_file_list (pathJoin root n) cs mode [] ++ gflDirs root rest mode [] := by
              conv_lhs => unfold gflDirs
              rw [if_neg hig]
              exact gflDirs_state root rest mode _
            rw [heq]
            obtain ⟨hnne, hnslash⟩ := goodName_elim n hgood
            have hnhead : n.data.head? ≠ some '/' := head?_ne_slash _ hnslash
            have hrootn : pathJoin root n ≠ ("") := pathJoin_ne_empty root n hr hnhead
            obtain ⟨hndC, hmemC⟩ := (ihN cs hcs (pathJoin root n) mode hrootn hwfc).1
            obtain ⟨hndR, hmemR⟩ := (ihN rest hrest root mode hr hwfr).2
            have hpre := dirPre_pathJoin root n hr hnne hnslash
            have hCform : ∀ p ∈ get_file_list (pathJoin root n) cs mode [],
                ∃ t, p.data = (dirPre root).data ++ n.data ++ '/' :: t := by
              intro p hp
              obtain ⟨s, hs, _, _⟩ := hmemC p hp
              refine ⟨s, ?_⟩
              rw [hs, hpre]
              simp [List.append_assoc]
            constructor
            · apply List.Nodup.append hndC hndR
              intro p hp1 hp2
              obtain ⟨t, ht⟩ := hCform p hp1
              obtain ⟨d, cs', t', hd1, hd2⟩ := hmemR p hp2
              have hgood' := wfT_mem_good rest hwfr (Entry.dir d cs') hd1
              have hdslash : ('/') ∉ d.data := (goodName_elim d hgood').2
              rw [ht] at hd2
              have hd2' : (dirPre root).data ++ (n.data ++ '/' :: t)
                  = (dirPre root).data ++ (d.data ++ '/' :: t') := by
                rw [← List.append_assoc, ← List.append_assoc]
                rw [← hd2]
              have hcanc := List.append_cancel_left hd2'
              obtain ⟨hnd_eq, _⟩ := slash_split n.data d.data t t' hnslash hdslash hcanc
              have : n = d := str_ext n d hnd_eq
              exact name_notin_namesOf n rest hnotin (Entry.dir d cs') hd1 this.symm
            · intro p hp
              rcases List.mem_append.mp hp with hp1 | hp2
              · obtain ⟨t, ht⟩ := hCform p hp1
                exact ⟨n, cs, t, List.mem_cons_self _ _, ht⟩
              · obtain ⟨d, cs', t', hd1, hd2⟩ := hmemR p hp2
                exact ⟨d, cs', t', List.mem_cons_of_mem _ hd1, hd2⟩
    refine ⟨?_, hDirs⟩
    obtain ⟨hndF, hmemF⟩ := gflFiles_spec root hr entries hwf
    have hFchar : ∀ p ∈ gflFiles root entries [], ∃ s : List Char,
        p.data = (dirPre root).data ++ s ∧ s ≠ [] ∧ s.head? ≠ some '/' := by
      intro p hp
      obtain ⟨name, hname, rfl⟩ := hmemF p hp
      have hgood' := wfT_mem_good entries hwf (Entry.file name) hname
      obtain ⟨hne', hslash'⟩ := goodName_elim name hgood'
      refine ⟨name.data, ?_, hne', head?_ne_slash _ hslash'⟩
      exact pathJoin_data root name hr (head?_ne_slash _ hslash')
    by_cases hm : mode = ("recursive")
    · have heq : get_file_list root entries mode []
          = gflFiles root entries [] ++ gflDirs root entries mode [] := by
        simp only [get_file_list]
        rw [if_pos hm]
        exact gflDirs_state root entries mode _
      rw [heq]
      constructor
      · apply List.Nodup.append hndF hDirs.1
        intro p hp1 hp2
        obtain ⟨name, hname, rfl⟩ := hmemF p hp1
        obtain ⟨d, cs', t', hd1, hd2⟩ := hDirs.2 _ hp2
        have hgoodn := wfT_mem_good entries hwf (Entry.file name) hname
        obtain ⟨hne', hslash'⟩ := goodName_elim name hgoodn
        rw [pathJoin_data root name hr (head?_ne_slash _ hslash')] at hd2
        have hd2' : (dirPre root).data ++ name.data
            = (dirPre root).data ++ (d.data ++ '/' :: t') := by
          rw [hd2]
          simp [List.append_assoc]
        have hcanc := List.append_cancel_left hd2'
        apply hslash'
        rw [hcanc]
        exact List.mem_append.mpr (Or.inr (List.mem_cons_self _ _))
      · intro p hp
        rcases List.mem_append.mp hp with hp1 | hp2
        · exact hFchar p hp1
        · obtain ⟨d, cs', t', hd1, hd2⟩ := hDirs.2 _ hp2
          have hgoodd := wfT_mem_good entries hwf (Entry.dir d cs') hd1
          obtain ⟨hdne, hdslash⟩ := goodName_elim d hgoodd
          refine ⟨d.data ++ '/' :: t', ?_, by simp, ?_⟩
          · rw [hd2]
            simp [List.append_assoc]
          · cases hdd : d.data with
            | nil => exact absurd hdd hdne
            | cons c u =>
              rw [List.cons_append, List.head?_cons]
              intro hc
              obtain rfl := Option.some.inj hc
              apply hdslash
              rw [hdd]
              exact List.mem_cons_self _ _
    · have heq : get_file_list root entries mode [] = gflFiles root entries [] := by
        simp only [get_file_list]
        rw [if_neg hm]
      rw [heq]
      exact ⟨hndF, hFchar⟩

theorem get_file_list_nodup (root : String) (entries : List Entry) (mode : String)
    (hr : root ≠ ("")) (hwf : wfT entries = true) :
    (get_file_list root entries mode []).Nodup :=
  ((gfl_big_aux (sizeOf entries) entries le_rfl root mode hr hwf).1).1

theorem isBool_int_false (n : ℤ) : TotalFrames.isBool (TotalFrames.int n) = false := rfl

theorem toInt_int (n : ℤ) : TotalFrames.toInt (TotalFrames.int n) = n := rfl

theorem eta_calc_pos_eq (n fc te : ℤ) (hn : 0 ≤ n) (hfc : 0 < fc) (hte : 0 < te) :
    eta_calc fc (TotalFrames.int n) te
      = Except.ok (⌊(n : ℚ) / ((fc : ℚ) / (te : ℚ))⌋ - te) := by
  simp only [eta_calc]
  rw [if_pos hte]
  have hratepos : (0 : ℚ) < (fc : ℚ) / (te : ℚ) := by
    apply div_pos
    · exact_mod_cast hfc
    · exact_mod_cast hte
  rw [if_neg (ne_of_gt hratepos)]
  rw [toInt_int]
  rw [pyTrunc_eq_floor _ (div_nonneg (by exact_mod_cast hn) hratepos.le)]

theorem eta_calc_zero_rate (tf : TotalFrames) (te : ℤ) (hte : 0 < te) :
    eta_calc 0 tf te = Except.error PyError.zeroDivisionError := by
  simp only [eta_calc]
  rw [if_pos hte]
  rw [if_pos (by push_cast; exact zero_div _)]

theorem eta_calc_te_zero (fc : ℤ) (tf : TotalFrames) :
    eta_calc fc tf 0 = Except.ok 0 := by
  simp only [eta_calc]
  rw [if_neg (by omega)]
  norm_num

theorem animated_progress_int_decomp (cfg : Config) (fc n te : ℤ)
    (h0 : 0 ≤ fc) (h1 : fc ≤ n) (h2 : 0 < n) (h3 : 0 ≤ te)
    (hw : cfg.progress_bar_count ≠ 0) :
    animated_progress cfg fc (TotalFrames.int n) te =
      match eta_calc fc (TotalFrames.int n) te with
      | Except.error e => Except.error e
      | Except.ok eta =>
        match print_time eta with
        | Except.error e => Except.error e
        | Except.ok t =>
            Except.ok
              { percentText := rjust 7 (pctFmt (round2 (((fc : ℚ) / (n : ℚ)) * 100)) ++ ("%")),
                barText :=
                  if cfg.symbol.length ≠ 0 then
                    repeatStr cfg.symbol
                        (pyTrunc (round2 (((fc : ℚ) / (n : ℚ)) * 100)
                          / (100 / (cfg.progress_bar_count : ℚ)))).toNat ++
                      repeatStr (" ") (cfg.progress_bar_count
                        - pyTrunc (round2 (((fc : ℚ) / (n : ℚ)) * 100)
                          / (100 / (cfg.progress_bar_count : ℚ)))).toNat
                  else
                    repeatStr ("█")
                        (⌈round2 (((fc : ℚ) / (n : ℚ)) * 100)
                          / (100 / (cfg.progress_bar_count : ℚ))⌉).toNat ++
                      repeatStr (" ") (cfg.progress_bar_count
                        - ⌈round2 (((fc : ℚ) / (n : ℚ)) * 100)
                          / (100 / (cfg.progress_bar_count : ℚ))⌉).toNat,
                etaText := ("Remaining: ") ++ t } := by
  simp only [animated_progress]
  rw [if_neg (by omega : ¬ fc < 0)]
  rw [if_neg (by
    rw [isBool_int_false, toInt_int]
    simp
    omega)]
  rw [toInt_int, if_neg (by omega : ¬ fc > n)]
  rw [if_neg (by omega : ¬ te < 0)]
  rw [isBool_int_false]
  cases heta : eta_calc fc (TotalFrames.int n) te with
  | error e => rfl
  | ok eta =>
    cases ht : print_time eta with
    | error e => simp [if_neg hw, ht]
    | ok t => simp [if_neg hw, ht]

theorem convert_read_loop_ok_inv (cfg : Config) (total : TotalFrames) (flac : String) :
    ∀ (evs : List EngineEvent) (ec : ℤ) (b : Bool) (p : String),
      convert_read_loop cfg total flac evs ec = Except.ok (b, p) → b = true ∧ p = flac := by
  intro evs
  induction evs with
  | nil =>
    intro ec b p h
    simp [convert_read_loop] at h
  | cons e rest ih =>
    intro ec b p h
    cases e with
    | eof =>
      rw [convert_read_loop] at h
      obtain ⟨h1, h2⟩ := Prod.mk.injEq .. ▸ Except.ok.inj h
      exact ⟨h1.symm, h2.symm⟩
    | frame c el =>
      rw [convert_read_loop] at h
      cases hap : animated_progress cfg (c : ℤ) total el with
      | error err => rw [hap] at h; cases h
      | ok r => rw [hap] at h; exact ih ec b p h
    | other =>
      rw [convert_read_loop] at h
      exact ih ec b p h

theorem convert_read_loop_ignores_exit (cfg : Config) (total : TotalFrames) (flac : String) :
    ∀ (evs : List EngineEvent) (ec ec' : ℤ),
      convert_read_loop cfg total flac evs ec = convert_read_loop cfg total flac evs ec' := by
  intro evs
  induction evs with
  | nil => intro ec ec'; rfl
  | cons e rest ih =>
    intro ec ec'
    cases e with
    | eof => rfl
    | frame c el =>
      rw [convert_read_loop, convert_read_loop]
      cases animated_progress cfg (c : ℤ) total el with
      | error err => rfl
      | ok r => exact ih ec ec'
    | other =>
      rw [convert_read_loop, convert_read_loop]
      exact ih ec ec'

/-- C3: whenever the read loop of `generate_flac_file` observes end-of-stream,
it terminates and returns `(True, flac_file)`; every terminating run that
returns at all returns success with the output path; and the result never
depends on the subprocess exit status, which the loop does not inspect. -/
theorem c3_eof_reports_success (cfg : Config) (total : TotalFrames) (flac : String)
    (rest evs : List EngineEvent) (ec ec' : ℤ) :
    convert_read_loop cfg total flac (EngineEvent.eof :: rest) ec = Except.ok (true, flac)
  ∧ (∀ b p, convert_read_loop cfg total flac evs ec = Except.ok (b, p) →
      b = true ∧ p = flac)
  ∧ convert_read_loop cfg total flac evs ec = convert_read_loop cfg total flac evs ec' :=
  ⟨rfl, fun b p h => convert_read_loop_ok_inv cfg total flac evs ec b p h,
    convert_read_loop_ignores_exit cfg total flac evs ec ec'⟩

theorem c3_witness : true = true ∧ ("/music/a.flac") = ("/music/a.flac") :=
  (c3_eof_reports_success defaultConfig (TotalFrames.bool false) ("/music/a.flac")
    [] [EngineEvent.eof] 0 1).2.1 true ("/music/a.flac") rfl

/-- C5: for a known positive total frame count, when `elapsedSeconds > 0`
(and at least one frame has been processed, so the rate is well defined) the
computed ETA is exactly `floor(totalFrames / (framesProcessed / elapsedSeconds))
- elapsedSeconds`, with no clamping to zero; when `elapsedSeconds = 0` the
ETA is `0`. -/
theorem c5_eta_formula (n fc te : ℤ) (hn : 0 < n) (hfc : 0 < fc) (hte : 0 < te) :
    eta_calc fc (TotalFrames.int n) te
      = Except.ok (⌊(n : ℚ) / ((fc : ℚ) / (te : ℚ))⌋ - te)
  ∧ eta_calc fc (TotalFrames.int n) 0 = Except.ok 0 :=
  ⟨eta_calc_pos_eq n fc te hn.le hfc hte, eta_calc_te_zero fc _⟩

theorem c5_witness : eta_calc 50 (TotalFrames.int 100) 10 = Except.ok 10 := by
  have h := (c5_eta_formula 100 50 10 (by norm_num) (by norm_num) (by norm_num)).1
  rw [h]
  have h2 : ((100 : ℤ) : ℚ) / (((50 : ℤ) : ℚ) / ((10 : ℤ) : ℚ)) = ((20 : ℤ) : ℚ) := by
    norm_num
  rw [h2, Int.floor_intCast]
  norm_num

/-- C9: with a known positive total frame count, `framesProcessed = 0` and
`elapsedSeconds > 0` — a sample the validation accepts — the renderer raises
`ZeroDivisionError`, because the throughput `framesProcessed / elapsedSeconds`
is the zero float and the total is divided by it. -/
theorem c9_div_by_zero (cfg : Config) (n te : ℤ) (hn : 0 < n) (hte : 0 < te) :
    animated_progress cfg 0 (TotalFrames.int n) te
      = Except.error PyError.zeroDivisionError := by
  simp only [animated_progress]
  rw [if_neg (by omega : ¬ (0 : ℤ) < 0)]
  rw [if_neg (by
    rw [isBool_int_false, toInt_int]
    simp
    omega)]
  rw [toInt_int, if_neg (by omega : ¬ (0 : ℤ) > n)]
  rw [if_neg (by omega : ¬ te < 0)]
  rw [eta_calc_zero_rate (TotalFrames.int n) te hte]

theorem c9_witness : animated_progress defaultConfig 0 (TotalFrames.int 100) 5
    = Except.error PyError.zeroDivisionError :=
  c9_div_by_zero defaultConfig 100 5 (by norm_num) (by norm_num)

/-- C6: the renderer fails with a `ValueError` (the source's
`InvalidProgressSample`) when `framesProcessed` is negative, when a known
integer `totalFrames` is not positive, and when `framesProcessed` exceeds a
known positive `totalFrames`. -/
theorem c6_validation (cfg : Config) (fc te : ℤ) (tf : TotalFrames) :
    (fc < 0 → animated_progress cfg fc tf te = Except.error PyError.valueError)
  ∧ (∀ n : ℤ, tf = TotalFrames.int n → n ≤ 0 →
      animated_progress cfg fc tf te = Except.error PyError.valueError)
  ∧ (∀ n : ℤ, tf = TotalFrames.int n → 0 < n → fc > n →
      animated_progress cfg fc tf te = Except.error PyError.valueError) := by
  refine ⟨?_, ?_, ?_⟩
  · intro hneg
    simp only [animated_progress]
    rw [if_pos hneg]
  · intro n htf hn
    subst htf
    simp only [animated_progress]
    by_cases hneg : fc < 0
    · rw [if_pos hneg]
    · rw [if_neg hneg]
      rw [if_pos (by rw [isBool_int_false, toInt_int]; exact ⟨rfl, hn⟩)]
  · intro n htf hn hgt
    subst htf
    simp only [animated_progress]
    rw [if_neg (by omega : ¬ fc < 0)]
    rw [if_neg (by
      rw [isBool_int_false, toInt_int]
      simp
      omega)]
    rw [toInt_int, if_pos hgt]

theorem c6_witness : animated_progress defaultConfig 5 (TotalFrames.int 3) 0
    = Except.error PyError.valueError :=
  (c6_validation defaultConfig 5 0 (TotalFrames.int 3)).2.2 3 rfl (by norm_num) (by norm_num)

/-- C1: the spec says an unknown total (boolean sentinel) renders
`"Frames: <n>"` with the bar omitted and a placeholder ETA for every
non-negative frame count; in the code the unguarded comparison
`frame_count > total_frames` coerces the boolean to `0`, so every call with
`framesProcessed ≥ 1` instead raises `ValueError`. This theorem evaluates the
code at the failing inputs. -/
theorem c1_unknown_total_raises (cfg : Config) (fc te : ℤ) (h : 1 ≤ fc) :
    animated_progress cfg fc (TotalFrames.bool false) te
      = Except.error PyError.valueError := by
  simp only [animated_progress]
  rw [if_neg (by omega : ¬ fc < 0)]
  rw [if_neg (by simp [TotalFrames.isBool])]
  rw [if_pos (by show fc > TotalFrames.toInt (TotalFrames.bool false); simp [TotalFrames.toInt]; omega)]

theorem c1_witness : animated_progress defaultConfig 1 (TotalFrames.bool false) 0
    = Except.error PyError.valueError :=
  c1_unknown_total_raises defaultConfig 1 0 (by norm_num)

/-- C7: the time formatter fails with `ValueError` (the source's
`InvalidArgument`) exactly on negative inputs, returns the literal
`"0 seconds"` on zero, and on every positive input produces the greedy
largest-to-smallest decomposition over weeks/days/hours/minutes/seconds,
zero-count units skipped, segments joined by single spaces with surrounding
whitespace stripped — with `format(3661)` and `format(90061)` as stated. -/
theorem c7_print_time (s : ℤ) :
    (print_time s = Except.error PyError.valueError ↔ s < 0)
  ∧ print_time 0 = Except.ok ("0 seconds")
  ∧ (0 < s → print_time s = Except.ok (spec_format s))
  ∧ print_time 3661 = Except.ok ("1 hours 1 minutes 1 seconds")
  ∧ print_time 90061 = Except.ok ("1 days 1 hours 1 minutes 1 seconds") := by
  refine ⟨?_, rfl, print_time_spec s, ?_, ?_⟩
  · constructor
    · intro h
      by_contra hge
      unfold print_time at h
      rw [if_neg hge] at h
      by_cases h0 : s = 0
      · rw [if_pos h0] at h
        cases h
      · rw [if_neg h0] at h
        cases h
    · intro hlt
      unfold print_time
      rw [if_pos hlt]
  · rw [print_time_spec 3661 (by norm_num)]
    have : spec_format 3661 = ("1 hours 1 minutes 1 seconds") := by decide
    rw [this]
  · rw [print_time_spec 90061 (by norm_num)]
    have : spec_format 90061 = ("1 days 1 hours 1 minutes 1 seconds") := by decide
    rw [this]

theorem c7_witness : print_time 3661 = Except.ok (spec_format 3661) :=
  (c7_print_time 3661).2.2.1 (by norm_num)

theorem roundHalfEven_nonneg (q : ℚ) (h : 0 ≤ q) : 0 ≤ roundHalfEven q := by
  unfold roundHalfEven
  have hf : (0 : ℤ) ≤ ⌊q⌋ := Int.le_floor.mpr (by exact_mod_cast h)
  split
  · exact hf
  · split
    · omega
    · split
      · exact hf
      · omega

theorem round2_nonneg (q : ℚ) (h : 0 ≤ q) : 0 ≤ round2 q := by
  unfold round2
  apply div_nonneg
  · exact_mod_cast roundHalfEven_nonneg (q * 100) (by positivity)
  · norm_num

theorem roundHalfEven_intCast (z : ℤ) : roundHalfEven ((z : ℤ) : ℚ) = z := by
  unfold roundHalfEven
  rw [Int.floor_intCast]
  rw [if_pos (by norm_num)]

/-- C8: for a known positive total, the rendered percent text is
`round(framesProcessed/totalFrames*100, 2)` formatted to two decimals with a
`%` sign, right-justified to 7 characters; the bar's filled-cell count is
`ceil(percentage / (100/width))` under solid-block rendering and
`floor(percentage / (100/width))` when a glyph is configured, right-padded
with spaces to the configured width. -/
theorem c8_percent_and_bar (cfg : Config) (fc n te : ℤ) (r : Rendered)
    (hw : 0 < cfg.progress_bar_count) (h0 : 0 ≤ fc) (h1 : fc ≤ n) (h2 : 0 < n) (h3 : 0 ≤ te)
    (hr : animated_progress cfg fc (TotalFrames.int n) te = Except.ok r) :
    r.percentText = rjust 7 (pctFmt (round2 (((fc : ℚ) / (n : ℚ)) * 100)) ++ ("%"))
  ∧ (cfg.symbol.length = 0 →
      r.barText = repeatStr ("█")
          (⌈round2 (((fc : ℚ) / (n : ℚ)) * 100) / (100 / (cfg.progress_bar_count : ℚ))⌉).toNat
        ++ repeatStr (" ") (cfg.progress_bar_count
          - ⌈round2 (((fc : ℚ) / (n : ℚ)) * 100) / (100 / (cfg.progress_bar_count : ℚ))⌉).toNat)
  ∧ (cfg.symbol.length ≠ 0 →
      r.barText = repeatStr cfg.symbol
          (⌊round2 (((fc : ℚ) / (n : ℚ)) * 100) / (100 / (cfg.progress_bar_count : ℚ))⌋).toNat
        ++ repeatStr (" ") (cfg.progress_bar_count
          - ⌊round2 (((fc : ℚ) / (n : ℚ)) * 100) / (100 / (cfg.progress_bar_count : ℚ))⌋).toNat) := by
  rw [animated_progress_int_decomp cfg fc n te h0 h1 h2 h3 (by omega)] at hr
  cases heta : eta_calc fc (TotalFrames.int n) te with
  | error e =>
    rw [heta] at hr
    cases hr
  | ok eta =>
    rw [heta] at hr
    cases ht : print_time eta with
    | error e =>
      simp only [ht] at hr
      exact Except.noConfusion hr
    | ok t =>
      simp only [ht] at hr
      obtain rfl := (Except.ok.inj hr).symm
      have harg : 0 ≤ round2 (((fc : ℚ) / (n : ℚ)) * 100)
          / (100 / (cfg.progress_bar_count : ℚ)) := by
        apply div_nonneg
        · apply round2_nonneg
          apply mul_nonneg
          · apply div_nonneg
            · exact_mod_cast h0
            · exact_mod_cast h2.le
          · norm_num
        · apply div_nonneg
          · norm_num
          · exact_mod_cast hw.le
      refine ⟨rfl, ?_, ?_⟩
      · intro hsym
        show (if cfg.symbol.length ≠ 0 then _ else _) = _
        rw [if_neg (by omega)]
      · intro hsym
        show (if cfg.symbol.length ≠ 0 then _ else _) = _
        rw [if_pos hsym]
        rw [pyTrunc_eq_floor _ harg]

theorem c8_witness :
    (" 50.00%") = rjust 7 (pctFmt (round2 ((((50 : ℤ) : ℚ) / ((100 : ℤ) : ℚ)) * 100)) ++ ("%"))
  ∧ ("██████████          ") = repeatStr ("█")
        (⌈round2 ((((50 : ℤ) : ℚ) / ((100 : ℤ) : ℚ)) * 100)
          / (100 / ((20 : ℤ) : ℚ))⌉).toNat
      ++ repeatStr (" ") ((20 : ℤ)
        - ⌈round2 ((((50 : ℤ) : ℚ) / ((100 : ℤ) : ℚ)) * 100)
          / (100 / ((20 : ℤ) : ℚ))⌉).toNat := by
  have heta : eta_calc 50 (TotalFrames.int 100) 10 = Except.ok 10 := by
    rw [eta_calc_pos_eq 100 50 10 (by norm_num) (by norm_num) (by norm_num)]
    have h2 : ((100 : ℤ) : ℚ) / (((50 : ℤ) : ℚ) / ((10 : ℤ) : ℚ)) = ((20 : ℤ) : ℚ) := by
      norm_num
    rw [h2, Int.floor_intCast]
    norm_num
  have ht : print_time 10 = Except.ok ("10 seconds") := by
    rw [print_time_spec 10 (by norm_num)]
    have hsf : spec_format 10 = ("10 seconds") := by decide
    rw [hsf]
  have hq : (((50 : ℤ) : ℚ) / ((100 : ℤ) : ℚ) * 100) = ((50 : ℤ) : ℚ) := by
    push_cast
    norm_num
  have hre : roundHalfEven (((50 : ℤ) : ℚ) * 100) = 5000 := by
    have h5 : (((50 : ℤ) : ℚ) * 100) = ((5000 : ℤ) : ℚ) := by push_cast; norm_num
    rw [h5, roundHalfEven_intCast]
  have hr2 : round2 (((50 : ℤ) : ℚ) / ((100 : ℤ) : ℚ) * 100) = ((50 : ℤ) : ℚ) := by
    rw [round2, hq, hre]
    push_cast
    norm_num
  have hfield1 : rjust 7 (pctFmt (round2 (((50 : ℤ) : ℚ) / ((100 : ℤ) : ℚ) * 100)) ++ ("%"))
      = (" 50.00%") := by
    rw [hr2]
    simp only [pctFmt]
    rw [hre]
    decide
  have hbarval : round2 (((50 : ℤ) : ℚ) / ((100 : ℤ) : ℚ) * 100)
      / (100 / ((defaultConfig.progress_bar_count : ℤ) : ℚ)) = ((10 : ℤ) : ℚ) := by
    rw [hr2]
    show ((50 : ℤ) : ℚ) / (100 / ((20 : ℤ) : ℚ)) = ((10 : ℤ) : ℚ)
    push_cast
    norm_num
  have hr : animated_progress defaultConfig 50 (TotalFrames.int 100) 10 = Except.ok
      { percentText := (" 50.00%"), barText := ("██████████          "),
        etaText := ("Remaining: 10 seconds") } := by
    rw [animated_progress_int_decomp defaultConfig 50 100 10 (by norm_num) (by norm_num)
      (by norm_num) (by norm_num) (by decide)]
    simp only [heta, ht]
    refine congrArg Except.ok ?_
    rw [hfield1]
    rw [if_neg (by decide : ¬ defaultConfig.symbol.length ≠ 0)]
    rw [hbarval, Int.ceil_intCast]
    decide
  have h := c8_percent_and_bar defaultConfig 50 100 10 _ (by decide) (by norm_num)
    (by norm_num) (by norm_num) (by norm_num) hr
  exact ⟨h.1, h.2.1 (by decide)⟩

/-- C4: the scenario tree (`a.wav`, `b.png`, `.ignore/c.mp3`, `sub/d.mp4`)
collected recursively with the ignore name `.ignore` yields exactly
`[/root/a.wav, /root/sub/d.mp4]` in that order: the non-whitelisted `b.png`
is excluded, the `.ignore` directory and its contents are excluded, and the
root's own files precede the contents of its subdirectories. -/
theorem c4_scenario :
    get_file_list ("/root") [Entry.file ("a.wav"), Entry.file ("b.png"),
      Entry.dir (".ignore") [Entry.file ("c.mp3")], Entry.dir ("sub") [Entry.file ("d.mp4")]]
      ("recursive") [] = [("/root/a.wav"), ("/root/sub/d.mp4")] := by
  simp only [get_file_list, gflFiles, gflDirs]
  norm_num [pathJoin, extOf, dirPre, audio_files, video_files, ignore_dir]
  decide

/-- C2 counterexample: with a static one-file filesystem, running the
collector a second time (the global `files` list still holding the first
result) does not return the same collection — it returns the first result
twice over, so the second call both depends on state left by the first call
and contains a duplicate entry. -/
theorem c2_counterexample :
    ¬ (get_file_list ("/r") [Entry.file ("a.wav")] ("recursive")
          (get_file_list ("/r") [Entry.file ("a.wav")] ("recursive") [])
        = get_file_list ("/r") [Entry.file ("a.wav")] ("recursive") []
      ∧ (get_file_list ("/r") [Entry.file ("a.wav")] ("recursive")
          (get_file_list ("/r") [Entry.file ("a.wav")] ("recursive") [])).Nodup) := by
  have h1 : get_file_list ("/r") [Entry.file ("a.wav")] ("recursive") [] = [("/r/a.wav")] := by
    simp only [get_file_list, gflFiles, gflDirs]
    norm_num [pathJoin, extOf, dirPre, audio_files, video_files, ignore_dir]
    decide
  have h2 : get_file_list ("/r") [Entry.file ("a.wav")] ("recursive") [("/r/a.wav")]
      = [("/r/a.wav"), ("/r/a.wav")] := by
    simp only [get_file_list, gflFiles, gflDirs]
    norm_num [pathJoin, extOf, dirPre, audio_files, video_files, ignore_dir]
    decide
  rw [h1, h2]
  intro hcontra
  obtain ⟨heq, _⟩ := hcontra
  exact List.cons_ne_nil _ _ (List.cons.inj heq).2

/-- C2 amended: each call of the collector returns the prior contents of the
process-global `files` list followed by a fresh collection, so a second call
extends the state left by the first (second result = first result ++ fresh
copy) rather than returning the same collection; the fresh collection of a
single call started on an empty global list has no duplicate entries, for
any well-formed filesystem tree and nonempty root path. -/
theorem c2_state_and_nodup (root : String) (entries : List Entry) (mode : String)
    (st : List String) :
    get_file_list root entries mode st = st ++ get_file_list root entries mode []
  ∧ (root ≠ ("") → wfT entries = true → (get_file_list root entries mode []).Nodup) :=
  ⟨get_file_list_state root entries mode st,
    fun hr hwf => get_file_list_nodup root entries mode hr hwf⟩

theorem c2_witness :
    get_file_list ("/r") [Entry.file ("a.wav")] ("recursive") [("/r/a.wav")]
      = [("/r/a.wav")] ++ get_file_list ("/r") [Entry.file ("a.wav")] ("recursive") []
  ∧ (get_file_list ("/r") [Entry.file ("a.wav")] ("recursive") []).Nodup :=
  ⟨(c2_state_and_nodup ("/r") [Entry.file ("a.wav")] ("recursive") [("/r/a.wav")]).1,
    (c2_state_and_nodup ("/r") [Entry.file ("a.wav")] ("recursive") []).2
      (by decide) (by simp only [wfT]; decide)⟩

theorem takeWhile_all_true (p : Char → Bool) (A : List Char) (h : ∀ a ∈ A, p a = true) :
    A.takeWhile p = A := by
  induction A with
  | nil => rfl
  | cons a t ih =>
    rw [List.takeWhile_cons, if_pos (h a (List.mem_cons_self _ _))]
    rw [ih (fun b hb => h b (List.mem_cons_of_mem _ hb))]

theorem takeWhile_append_all (p : Char → Bool) (A B : List Char) (h : ∀ a ∈ A, p a = true) :
    (A ++ B).takeWhile p = A ++ B.takeWhile p := by
  induction A with
  | nil => rfl
  | cons a t ih =>
    rw [List.cons_append, List.takeWhile_cons, if_pos (h a (List.mem_cons_self _ _))]
    rw [ih (fun b hb => h b (List.mem_cons_of_mem _ hb))]
    simp

theorem extOf_dotless_has_slash (root name : String) (hr : root ≠ (""))
    (hdot : ('.') ∉ name.data) : ('/') ∈ (extOf (pathJoin root name)).data := by
  have hall : ∀ c ∈ name.data.reverse, (c != '.') = true := by
    intro c hc
    rw [List.mem_reverse] at hc
    simp only [bne_iff_ne, ne_eq]
    intro hcc
    rw [hcc] at hc
    exact hdot hc
  by_cases hh : name.data.head? = some '/'
  · have hj : pathJoin root name = name := by
      unfold pathJoin
      rw [if_pos hh]
    rw [hj]
    show ('/') ∈ (name.data.reverse.takeWhile (fun c => c != '.')).reverse
    rw [takeWhile_all_true _ _ hall]
    rw [List.reverse_reverse]
    exact head?_mem _ _ hh
  · have hj := pathJoin_data root name hr hh
    obtain ⟨Q, hQ⟩ : ∃ Q, (dirPre root).data = Q ++ ['/'] := by
      have hne := dirPre_data_ne_nil root
      refine ⟨(dirPre root).data.dropLast, ?_⟩
      have hlast : (dirPre root).data.getLast hne = '/' := by
        have h1 := List.getLast?_eq_getLast_of_ne_nil hne
        have h2 := dirPre_data_last root
        rw [h1] at h2
        exact Option.some.inj h2
      rw [← hlast]
      exact (List.dropLast_append_getLast hne).symm
    show ('/') ∈ ((pathJoin root name).data.reverse.takeWhile (fun c => c != '.')).reverse
    rw [hj, hQ]
    have hrev : ((Q ++ ['/']) ++ name.data).reverse = name.data.reverse ++ '/' :: Q.reverse := by
      simp
    rw [hrev]
    rw [takeWhile_append_all _ _ _ hall]
    rw [List.takeWhile_cons, if_pos (by decide)]
    simp

theorem slash_ext_not_whitelisted (e : String) (hs : ('/') ∈ e.data) :
    e ∉ audio_files ∧ e ∉ video_files := by
  constructor
  · intro hmem
    rcases (by simpa [audio_files] using hmem : e = ("wav") ∨ e = ("mp3") ∨ e = ("m4a")) with
      rfl | rfl | rfl
    all_goals revert hs
    all_goals decide
  · intro hmem
    rcases (by simpa [video_files] using hmem : e = ("mp4") ∨ e = ("mkv")) with rfl | rfl
    all_goals revert hs
    all_goals decide

/-- C10 counterexample: the claim says that a regular file whose name has no
dot, named exactly like a whitelisted extension (literally `mp3`), is
included; in fact the source computes the extension from the full joined
path, which for a dotless file name always contains the path separator,
so the file is excluded. -/
theorem c10_counterexample :
    get_file_list ("/music") [Entry.file ("mp3")] ("recursive") [] = []
  ∧ pathJoin ("/music") ("mp3") ∉
      get_file_list ("/music") [Entry.file ("mp3")] ("recursive") [] := by
  have h1 : get_file_list ("/music") [Entry.file ("mp3")] ("recursive") [] = [] := by
    simp only [get_file_list, gflFiles, gflDirs]
    norm_num [pathJoin, extOf, dirPre, audio_files, video_files, ignore_dir]
    decide
  rw [h1]
  exact ⟨rfl, List.not_mem_nil _⟩

/-- C10 amended: for a regular file whose name contains no `.`, the collector
computes its extension from the full joined path (falling back to the whole
path when the path has no dot at all); that candidate always contains a path
separator, so it never matches the whitelist and the file is always
excluded — in particular a file literally named `mp3` is not collected. -/
theorem c10_dotless_excluded (root name mode : String) (hr : root ≠ (""))
    (hdot : ('.') ∉ name.data) :
    extOf (pathJoin root name) ∉ audio_files
  ∧ extOf (pathJoin root name) ∉ video_files
  ∧ get_file_list root [Entry.file name] mode [] = [] := by
  obtain ⟨hna, hnv⟩ := slash_ext_not_whitelisted _ (extOf_dotless_has_slash root name hr hdot)
  refine ⟨hna, hnv, ?_⟩
  have hF : gflFiles root [Entry.file name] [] = [] := by
    simp only [gflFiles]
    rw [if_neg (by
      intro hor
      rcases hor with h | h
      · exact hna h
      · exact hnv h)]
  have hD : ∀ files : List String, gflDirs root [Entry.file name] mode files = files := by
    intro files
    rw [gflDirs_file_skip]
    unfold gflDirs
    simp
  simp only [get_file_list]
  by_cases hm : mode = ("recursive")
  · rw [if_pos hm, hF, hD]
  · rw [if_neg hm, hF]

theorem c10_witness :
    extOf (pathJoin ("/music") ("mp3")) ∉ audio_files
  ∧ extOf (pathJoin ("/music") ("mp3")) ∉ video_files
  ∧ get_file_list ("/music") [Entry.file ("mp3")] ("recursive") [] = [] :=
  c10_dotless_excluded ("/music") ("mp3") ("recursive") (by decide) (by decide)
